import Mathlib

/-!
Shallow embedding of the benchmark engine from `gcp_benchmark/bench-autocommit`
(`src/workloads.rs`, `src/main.rs`) and its archived variant
(`archive/bench-autocommit/src/main.rs`).

Rust `i64` values are modelled as `ℤ` (the workloads keep all quantities far
below the 64-bit overflow boundary; the spec mandates 64-bit arithmetic for
exactly that reason), `u64`/`usize` as `ℕ`, and `f64` latencies and statistics
as `ℚ`.  Rust's `%` and `/` on `i64` truncate toward zero, so they are
modelled by `Int.tmod` and `Int.tdiv`.
-/

namespace Bench

/-- The fixed multiplier of the key scatterer
(`const MULTIPLIER: i64 = 16777619`, workloads.rs line 32). -/
def MULTIPLIER : ℤ := 16777619

/-- `scatter_id` from workloads.rs lines 31–41: multiply by `MULTIPLIER`,
take the Rust `%` (truncated remainder, `Int.tmod`) by `total_rows`, and fold
a negative remainder back into range by adding `total_rows`. -/
def scatter_id (sequential_id : ℤ) (total_rows : ℕ) : ℤ :=
  let scattered := Int.tmod (sequential_id * MULTIPLIER) (total_rows : ℤ)
  if scattered < 0 then scattered + (total_rows : ℤ) else scattered

/-- `ThreadRange` from workloads.rs lines 12–15: a half-open id interval
`[start, end)` assigned to one worker. -/
structure ThreadRange where
  start : ℕ
  «end» : ℕ
deriving DecidableEq, Repr

/-- `ThreadRange::new` from workloads.rs lines 17–28 (identical copy in
main.rs lines 119–130): chunk size is `total_rows / total_threads`; the last
worker's `end` is `total_rows`, absorbing the remainder. -/
def ThreadRange.new (thread_id total_threads total_rows : ℕ) : ThreadRange :=
  let range_size := total_rows / total_threads
  let start := thread_id * range_size
  { start := start
    «end» := if thread_id = total_threads - 1 then total_rows
             else start + range_size }

/-- Membership of an id in a worker's half-open range. -/
def ThreadRange.mem (r : ThreadRange) (x : ℕ) : Prop :=
  r.start ≤ x ∧ x < r.«end»

instance (r : ThreadRange) (x : ℕ) : Decidable (r.mem x) := by
  unfold ThreadRange.mem; infer_instance

/-- `scatter_for_pk` from workloads.rs lines 97–103: split the monotonic
counter into a region (`i64` division, truncated) and a scattered offset
inside the region. -/
def scatter_for_pk (sequential_id : ℤ) (total_rows : ℕ) : ℤ :=
  let base : ℤ := (total_rows : ℤ)
  let region_id := Int.tdiv sequential_id base
  let offset := scatter_id (Int.tmod sequential_id base) total_rows
  region_id * base + offset

/-- For a non-negative input the negative-fold branch of `scatter_id` is dead:
the result is the Euclidean remainder of `sequential_id * MULTIPLIER`. -/
lemma scatter_id_eq_emod (k : ℤ) (n : ℕ) (hk : 0 ≤ k) (hn : 0 < n) :
    scatter_id k n = (k * MULTIPLIER) % (n : ℤ) := by
  unfold scatter_id
  have hM : (0 : ℤ) ≤ k * MULTIPLIER := by
    have : (0 : ℤ) ≤ MULTIPLIER := by norm_num [MULTIPLIER]
    positivity
  rw [Int.tmod_eq_emod hM (by exact_mod_cast Nat.zero_le n)]
  have h2 : 0 ≤ (k * MULTIPLIER) % (n : ℤ) :=
    Int.emod_nonneg _ (by exact_mod_cast hn.ne')
  simp [not_lt.mpr h2]

/-- For a non-negative input `scatter_id` lands in `[0, n)`. -/
lemma scatter_id_nonneg_lt (k : ℤ) (n : ℕ) (hk : 0 ≤ k) (hn : 0 < n) :
    0 ≤ scatter_id k n ∧ scatter_id k n < n := by
  rw [scatter_id_eq_emod k n hk hn]
  constructor
  · exact Int.emod_nonneg _ (by exact_mod_cast hn.ne')
  · exact Int.emod_lt_of_pos _ (by exact_mod_cast hn)

/-- When the multiplier is coprime to `n`, equal scattered values force the
difference of the inputs to be divisible by `n`. -/
lemma scatter_id_eq_imp_dvd (n : ℕ) (hn : 0 < n) (hc : Nat.Coprime 16777619 n)
    (a b : ℤ) (ha : 0 ≤ a) (hb : 0 ≤ b)
    (h : scatter_id a n = scatter_id b n) : (n : ℤ) ∣ b - a := by
  rw [scatter_id_eq_emod a n ha hn, scatter_id_eq_emod b n hb hn] at h
  have hmod : Int.ModEq (n : ℤ) (a * MULTIPLIER) (b * MULTIPLIER) := h
  have hdvd : (n : ℤ) ∣ b * MULTIPLIER - a * MULTIPLIER := hmod.dvd
  have hfac : b * MULTIPLIER - a * MULTIPLIER = (b - a) * MULTIPLIER := by ring
  rw [hfac] at hdvd
  have hcop : IsCoprime ((n : ℕ) : ℤ) (MULTIPLIER) := by
    have := (Nat.isCoprime_iff_coprime (m := 16777619) (n := n)).mpr hc
    exact (isCoprime_comm.mp this)
  exact hcop.dvd_of_dvd_mul_right hdvd

/-- C1: for every `range_size > 1` coprime with the multiplier 16777619,
`scatter_id` is a bijection on `[0, range_size)`: every input in range maps
into the range, no two distinct inputs in range collide, and every value in
range is attained. -/
theorem scatter_id_bijective_on_range (range_size : ℕ) (h1 : 1 < range_size)
    (hc : Nat.Coprime 16777619 range_size) :
    (∀ k : ℤ, 0 ≤ k → k < range_size →
      0 ≤ scatter_id k range_size ∧ scatter_id k range_size < range_size) ∧
    (∀ a b : ℤ, 0 ≤ a → a < range_size → 0 ≤ b → b < range_size →
      scatter_id a range_size = scatter_id b range_size → a = b) ∧
    (∀ y : ℤ, 0 ≤ y → y < range_size →
      ∃ k : ℤ, 0 ≤ k ∧ k < range_size ∧ scatter_id k range_size = y) := by
  have hn : 0 < range_size := by omega
  have hmem : ∀ k : ℤ, 0 ≤ k →
      0 ≤ scatter_id k range_size ∧ scatter_id k range_size < range_size :=
    fun k hk => scatter_id_nonneg_lt k range_size hk hn
  have hinj : ∀ a b : ℤ, 0 ≤ a → a < range_size → 0 ≤ b → b < range_size →
      scatter_id a range_size = scatter_id b range_size → a = b := by
    intro a b ha1 ha2 hb1 hb2 h
    have hdvd := scatter_id_eq_imp_dvd range_size hn hc a b ha1 hb1 h
    have hz : b - a = 0 := by
      refine Int.eq_zero_of_abs_lt_dvd hdvd ?_
      rw [abs_lt]
      constructor <;> omega
    omega
  refine ⟨fun k hk _ => hmem k hk, hinj, ?_⟩
  -- surjectivity: the induced map on `Fin range_size` is injective, hence
  -- surjective since `Fin range_size` is finite
  intro y hy1 hy2
  let f : Fin range_size → Fin range_size := fun i =>
    ⟨(scatter_id (i : ℤ) range_size).toNat, by
      have h := hmem (i : ℤ) (by exact_mod_cast Nat.zero_le _)
      omega⟩
  have hfinj : Function.Injective f := by
    intro i j hij
    have h1' : (scatter_id (i : ℤ) range_size).toNat
        = (scatter_id (j : ℤ) range_size).toNat := congrArg Fin.val hij
    have hi := hmem (i : ℤ) (by exact_mod_cast Nat.zero_le _)
    have hj := hmem (j : ℤ) (by exact_mod_cast Nat.zero_le _)
    have heq : scatter_id (i : ℤ) range_size = scatter_id (j : ℤ) range_size := by
      omega
    have := hinj (i : ℤ) (j : ℤ) (by exact_mod_cast Nat.zero_le _)
      (by exact_mod_cast i.isLt) (by exact_mod_cast Nat.zero_le _)
      (by exact_mod_cast j.isLt) heq
    exact Fin.ext (by exact_mod_cast this)
  have hfsurj : Function.Surjective f := Finite.injective_iff_surjective.mp hfinj
  obtain ⟨i, hi⟩ := hfsurj ⟨y.toNat, by omega⟩
  refine ⟨(i : ℤ), by exact_mod_cast Nat.zero_le _, by exact_mod_cast i.isLt, ?_⟩
  have hval : (scatter_id (i : ℤ) range_size).toNat = y.toNat := congrArg Fin.val hi
  have hmemi := hmem (i : ℤ) (by exact_mod_cast Nat.zero_le _)
  omega

/-- Witness for C1 at `range_size = 10` (coprime with 16777619),
input `3`: the scattered value lies in `[0, 10)` and equals `7`. -/
theorem scatter_id_bijective_on_range_witness :
    (1 < 10 ∧ Nat.Coprime 16777619 10) ∧
    (0 ≤ scatter_id 3 10 ∧ scatter_id 3 10 < 10) ∧ scatter_id 3 10 = 7 :=
  ⟨⟨by norm_num, by decide⟩,
   (scatter_id_bijective_on_range 10 (by norm_num) (by decide)).1 3
     (by norm_num) (by norm_num),
   by decide⟩

lemma ThreadRange.new_start (i T R : ℕ) :
    (ThreadRange.new i T R).start = i * (R / T) := rfl

lemma ThreadRange.new_end_last (T R : ℕ) :
    (ThreadRange.new (T - 1) T R).«end» = R := by
  simp [ThreadRange.new]

lemma ThreadRange.new_end_mid (i T R : ℕ) (h : i ≠ T - 1) :
    (ThreadRange.new i T R).«end» = i * (R / T) + R / T := by
  simp [ThreadRange.new, h]

/-- Two distinct worker ranges never share an id (for `i < j < T`). -/
lemma ThreadRange.new_disjoint_aux (T R i j x : ℕ) (hij : i < j) (hj : j < T)
    (hi : (ThreadRange.new i T R).mem x) (hjm : (ThreadRange.new j T R).mem x) :
    False := by
  have hiT : i ≠ T - 1 := by omega
  have hx1 : x < i * (R / T) + R / T := by
    have := hi.2; rwa [ThreadRange.new_end_mid i T R hiT] at this
  have hx2 : j * (R / T) ≤ x := by
    have := hjm.1; rwa [ThreadRange.new_start j T R] at this
  have hle : i * (R / T) + R / T ≤ j * (R / T) := by
    have h1 : (i + 1) * (R / T) ≤ j * (R / T) :=
      Nat.mul_le_mul_right _ (by omega)
    calc i * (R / T) + R / T = (i + 1) * (R / T) := by ring
      _ ≤ j * (R / T) := h1
  omega

/-- C2: for `total_threads ≥ 1` and `total_rows ≥ total_threads`,
`ThreadRange::new` yields contiguous, pairwise non-overlapping half-open
intervals whose union is exactly `[0, total_rows)`; each non-last worker gets
a chunk of size `total_rows / total_threads` and the last worker's `end` is
`total_rows`. -/
theorem ThreadRange_new_partition (total_threads total_rows : ℕ)
    (hT : 1 ≤ total_threads) (hR : total_threads ≤ total_rows) :
    (∀ i, i < total_threads → i ≠ total_threads - 1 →
      (ThreadRange.new i total_threads total_rows).«end»
        = (ThreadRange.new i total_threads total_rows).start
            + total_rows / total_threads) ∧
    ((ThreadRange.new (total_threads - 1) total_threads total_rows).«end»
        = total_rows) ∧
    (∀ i, i + 1 < total_threads →
      (ThreadRange.new i total_threads total_rows).«end»
        = (ThreadRange.new (i + 1) total_threads total_rows).start) ∧
    (∀ x, x < total_rows ↔ ∃ i, i < total_threads ∧
      (ThreadRange.new i total_threads total_rows).mem x) ∧
    (∀ i j x, i < total_threads → j < total_threads →
      (ThreadRange.new i total_threads total_rows).mem x →
      (ThreadRange.new j total_threads total_rows).mem x → i = j) := by
  set s := total_rows / total_threads with hs
  have hs1 : 1 ≤ s := (Nat.one_le_div_iff (by omega)).mpr hR
  have hTs : total_threads * s ≤ total_rows := by
    have := Nat.div_mul_le_self total_rows total_threads
    calc total_threads * s = total_rows / total_threads * total_threads := by
          rw [hs]; ring
      _ ≤ total_rows := this
  refine ⟨?_, ThreadRange.new_end_last _ _, ?_, ?_, ?_⟩
  · intro i _ hne
    rw [ThreadRange.new_end_mid i _ _ hne, ThreadRange.new_start]
  · intro i hi1
    rw [ThreadRange.new_end_mid i _ _ (by omega), ThreadRange.new_start]
    ring
  · intro x
    constructor
    · intro hx
      rcases Nat.lt_or_ge (x / s) (total_threads - 1) with hq | hq
      · refine ⟨x / s, by omega, ?_, ?_⟩
        · rw [ThreadRange.new_start]
          exact Nat.div_mul_le_self x s
        · rw [ThreadRange.new_end_mid _ _ _ (by omega)]
          have hlt : x < (x / s + 1) * s :=
            (Nat.div_lt_iff_lt_mul (by omega)).mp (by omega)
          calc x < (x / s + 1) * s := hlt
            _ = x / s * s + s := by ring
      · refine ⟨total_threads - 1, by omega, ?_, ?_⟩
        · rw [ThreadRange.new_start, ← hs]
          have h1 : (total_threads - 1) * s ≤ x / s * s :=
            Nat.mul_le_mul_right _ hq
          have h2 : x / s * s ≤ x := Nat.div_mul_le_self x s
          omega
        · rw [ThreadRange.new_end_last]; exact hx
    · rintro ⟨i, hiT, him⟩
      rcases eq_or_ne i (total_threads - 1) with he | hne
      · have := him.2; rw [he, ThreadRange.new_end_last] at this; exact this
      · have hx1 := him.2
        rw [ThreadRange.new_end_mid _ _ _ hne, ← hs] at hx1
        have h1 : (i + 1) * s ≤ total_threads * s :=
          Nat.mul_le_mul_right _ (by omega)
        have h2 : i * s + s = (i + 1) * s := by ring
        omega
  · intro i j x hiT hjT him hjm
    rcases Nat.lt_trichotomy i j with h | h | h
    · exact absurd (ThreadRange.new_disjoint_aux _ _ i j x h hjT him hjm) id
    · exact h
    · exact absurd (ThreadRange.new_disjoint_aux _ _ j i x h hiT hjm him) id

/-- Witness for C2 at `total_threads = 3`, `total_rows = 10`: the last range
ends at 10, id 7 lies in some range, and it lies only in range 2. -/
theorem ThreadRange_new_partition_witness :
    (1 ≤ 3 ∧ 3 ≤ 10) ∧
    (ThreadRange.new 2 3 10).«end» = 10 ∧
    (7 < 10 ↔ ∃ i, i < 3 ∧ (ThreadRange.new i 3 10).mem 7) :=
  ⟨⟨by norm_num, by norm_num⟩,
   (ThreadRange_new_partition 3 10 (by norm_num) (by norm_num)).2.1,
   (ThreadRange_new_partition 3 10 (by norm_num) (by norm_num)).2.2.2.1 7⟩

/-- C10: in the degenerate case `0 ≤ total_rows < total_threads`,
`ThreadRange::new` still yields a valid partition: the chunk size is 0, every
non-last worker receives the empty range `[0, 0)`, the last worker receives
`[0, total_rows)`, the union of all ranges is exactly `[0, total_rows)`, and
no id lies in two distinct ranges. -/
theorem ThreadRange_new_degenerate (total_threads total_rows : ℕ)
    (hT : 1 ≤ total_threads) (hR : total_rows < total_threads) :
    total_rows / total_threads = 0 ∧
    (∀ i, i < total_threads → i ≠ total_threads - 1 →
      ThreadRange.new i total_threads total_rows = ⟨0, 0⟩) ∧
    ThreadRange.new (total_threads - 1) total_threads total_rows
      = ⟨0, total_rows⟩ ∧
    (∀ x, x < total_rows ↔ ∃ i, i < total_threads ∧
      (ThreadRange.new i total_threads total_rows).mem x) ∧
    (∀ i j x, i < total_threads → j < total_threads →
      (ThreadRange.new i total_threads total_rows).mem x →
      (ThreadRange.new j total_threads total_rows).mem x → i = j) := by
  have hs : total_rows / total_threads = 0 := Nat.div_eq_of_lt hR
  have hmid : ∀ i, i ≠ total_threads - 1 →
      ThreadRange.new i total_threads total_rows = ⟨0, 0⟩ := by
    intro i hne
    simp [ThreadRange.new, hs, hne]
  have hlast : ThreadRange.new (total_threads - 1) total_threads total_rows
      = ⟨0, total_rows⟩ := by
    simp [ThreadRange.new, hs]
  refine ⟨hs, fun i _ hne => hmid i hne, hlast, ?_, ?_⟩
  · intro x
    constructor
    · intro hx
      exact ⟨total_threads - 1, by omega, by rw [hlast]; exact ⟨Nat.zero_le _, hx⟩⟩
    · rintro ⟨i, _, him⟩
      rcases eq_or_ne i (total_threads - 1) with he | hne
      · rw [he, hlast] at him; exact him.2
      · rw [hmid i hne] at him
        simp [ThreadRange.mem] at him
  · intro i j x _ _ him hjm
    rcases eq_or_ne i (total_threads - 1) with hei | hei
    · rcases eq_or_ne j (total_threads - 1) with hej | hej
      · rw [hei, hej]
      · rw [hmid j hej] at hjm
        simp [ThreadRange.mem] at hjm
    · rw [hmid i hei] at him
      simp [ThreadRange.mem] at him

/-- Witness for C10 at `total_threads = 4`, `total_rows = 2`: worker 1 gets
the empty range and worker 3 gets `[0, 2)`. -/
theorem ThreadRange_new_degenerate_witness :
    (1 ≤ 4 ∧ 2 < 4) ∧
    ThreadRange.new 1 4 2 = ⟨0, 0⟩ ∧ ThreadRange.new 3 4 2 = ⟨0, 2⟩ :=
  ⟨⟨by norm_num, by norm_num⟩,
   (ThreadRange_new_degenerate 4 2 (by norm_num) (by norm_num)).2.1 1
     (by norm_num) (by norm_num),
   (ThreadRange_new_degenerate 4 2 (by norm_num) (by norm_num)).2.2.1⟩

/-- The shared workload state of one trial: `WorkloadState` from main.rs
lines 98–112 (`remaining_rows`, an `AtomicI64` initialised to the total row
count) together with the process-wide delete cursors `NEXT_DELETE_ID` and
`NEXT_DELETE_K1` (workloads.rs lines 8–9), which `run_single_benchmark`
resets to 0 before each trial (main.rs lines 380–381).  The timing fields
(`start_time`, `actual_duration_ms`) are real-time and not modelled. -/
structure WorkloadState where
  remaining_rows : ℤ
  next_delete_id : ℤ
  next_delete_k1 : ℤ
deriving DecidableEq, Repr

/-- `WorkloadState::new(total_rows)` plus the cursor resets performed by
`run_single_benchmark` before the workers start. -/
def WorkloadState.new (total_rows : ℤ) : WorkloadState :=
  { remaining_rows := total_rows, next_delete_id := 0, next_delete_k1 := 0 }

/-- `run_point_delete_workload` from workloads.rs lines 43–66.  The
fetch-add on the shared cursor and the early return are modelled by explicit
state passing; the database's reply is the input `rows_affected`.  The
result is the successor state, the scattered key the `DELETE` was bound to
(`none` when the claimed id was out of range and no statement was issued),
and whether the call returned an error. -/
def run_point_delete_workload (s : WorkloadState) (rows : ℕ)
    (rows_affected : ℕ) : WorkloadState × Option ℤ × Bool :=
  let id := s.next_delete_id
  let s' := { s with next_delete_id := id + 1 }
  if (rows : ℤ) ≤ id then (s', none, false)
  else
    let scattered_id := scatter_id id rows
    if 0 < rows_affected then (s', some scattered_id, false)
    else (s', some scattered_id, true)

/-- One worker-loop iteration running the point-delete executor: only the
state component is threaded to the next iteration. -/
def point_delete_iter (rows rows_affected : ℕ) (s : WorkloadState) :
    WorkloadState :=
  (run_point_delete_workload s rows rows_affected).1

/-- The worker-loop condition from main.rs lines 422–424:
`start_time.elapsed() < duration && (operation_idx < 3 || remaining_rows > 0)`.
Elapsed time and duration are abstracted to naturals (milliseconds). -/
def worker_loop_guard (operation_idx elapsed duration : ℕ)
    (s : WorkloadState) : Bool :=
  decide (elapsed < duration)
    && (decide (operation_idx < 3) || decide (0 < s.remaining_rows))

lemma run_point_delete_workload_state (s : WorkloadState) (rows ra : ℕ) :
    (run_point_delete_workload s rows ra).1
      = { s with next_delete_id := s.next_delete_id + 1 } := by
  by_cases h : (rows : ℤ) ≤ s.next_delete_id <;>
    simp [run_point_delete_workload, h, apply_ite]

/-- Iterating the point-delete executor advances the cursor by one each call
and never touches `remaining_rows`. -/
lemma point_delete_iter_state (rows ra n : ℕ) :
    ((point_delete_iter rows ra)^[n] (WorkloadState.new rows)).remaining_rows
        = (rows : ℤ) ∧
    ((point_delete_iter rows ra)^[n] (WorkloadState.new rows)).next_delete_id
        = (n : ℤ) := by
  have hstep : ∀ s : WorkloadState, point_delete_iter rows ra s
      = { s with next_delete_id := s.next_delete_id + 1 } :=
    fun s => run_point_delete_workload_state s rows ra
  induction n with
  | zero => simp [WorkloadState.new]
  | succ k ih =>
    rw [Function.iterate_succ_apply', hstep]
    refine ⟨ih.1, ?_⟩
    show ((point_delete_iter rows ra)^[k]
        (WorkloadState.new rows)).next_delete_id + 1 = ((k + 1 : ℕ) : ℤ)
    rw [ih.2]
    push_cast
    ring

/-- C3: refutation evidence.  The worker loop's early-exit check for the
finite-resource operations reads `remaining_rows`, but no code path ever
decrements it: after any number `n` of point-delete iterations (operation
index 3) the counter still equals the configured total and — whenever the
wall-clock duration has not elapsed — the loop guard is still `true`, even
when the delete cursor `next_delete_id = n` has reached or passed the total.
So deletes do not stop early; they run until the duration elapses, exactly
like insert and the updates. -/
theorem worker_loop_ignores_delete_cursor (rows ra elapsed duration : ℕ)
    (hed : elapsed < duration) (hrows : 0 < rows) (n : ℕ) :
    ((point_delete_iter rows ra)^[n] (WorkloadState.new rows)).remaining_rows
        = (rows : ℤ) ∧
    ((point_delete_iter rows ra)^[n] (WorkloadState.new rows)).next_delete_id
        = (n : ℤ) ∧
    worker_loop_guard 3 elapsed duration
        ((point_delete_iter rows ra)^[n] (WorkloadState.new rows)) = true := by
  obtain ⟨h1, h2⟩ := point_delete_iter_state rows ra n
  refine ⟨h1, h2, ?_⟩
  unfold worker_loop_guard
  rw [h1]
  simp [hed]
  exact_mod_cast hrows

/-- Witness for C3: `rows = 1`, two iterations already performed (the cursor
`next_delete_id = 2` is past the total of 1), yet the guard still says to
start a new iteration. -/
theorem worker_loop_ignores_delete_cursor_witness :
    (0 < 10 ∧ 0 < 1) ∧
    ((point_delete_iter 1 1)^[2] (WorkloadState.new 1)).next_delete_id = 2 ∧
    worker_loop_guard 3 0 10
        ((point_delete_iter 1 1)^[2] (WorkloadState.new 1)) = true :=
  ⟨⟨by norm_num, by norm_num⟩,
   (worker_loop_ignores_delete_cursor 1 1 0 10 (by norm_num) (by norm_num) 2).2.1,
   (worker_loop_ignores_delete_cursor 1 1 0 10 (by norm_num) (by norm_num) 2).2.2⟩

/-- C5: `run_point_delete_workload` claims the next id by fetch-add 1; a
claimed id at or past `rows` is a successful no-op (no statement issued, no
error); an in-range claim issues a delete bound to the scattered key, and
it errors exactly when the delete affected zero rows.  Consequently, after
the first `rows` claims (ids `0 .. rows - 1`), every later claim — in
particular the `(rows+1)`-th — is a no-op that neither errors nor issues a
second delete. -/
theorem run_point_delete_spec (rows : ℕ) (s : WorkloadState) (ra : ℕ) :
    ((run_point_delete_workload s rows ra).1
        = { s with next_delete_id := s.next_delete_id + 1 }) ∧
    ((rows : ℤ) ≤ s.next_delete_id →
      (run_point_delete_workload s rows ra).2 = (none, false)) ∧
    (s.next_delete_id < (rows : ℤ) →
      (run_point_delete_workload s rows ra).2.1
          = some (scatter_id s.next_delete_id rows) ∧
      ((run_point_delete_workload s rows ra).2.2 = true ↔ ra = 0)) ∧
    (∀ n : ℕ, rows ≤ n →
      (run_point_delete_workload
          ((point_delete_iter rows ra)^[n] (WorkloadState.new rows))
          rows ra).2 = (none, false)) := by
  refine ⟨run_point_delete_workload_state s rows ra, ?_, ?_, ?_⟩
  · intro h
    simp [run_point_delete_workload, h]
  · intro h
    rw [run_point_delete_workload]
    simp only [not_le.mpr h, if_neg (not_le.mpr h)]
    by_cases h2 : 0 < ra <;> simp [h2] <;> omega
  · intro n hn
    obtain ⟨_, h2⟩ := point_delete_iter_state rows ra n
    simp [run_point_delete_workload, h2, Int.ofNat_le.mpr hn]

/-- Witness for C5 at `rows = 2`, `rows_affected = 1`: the first claim from a
fresh state issues a delete for `scatter_id 0 2` without error, and the third
claim (after the cursor reached 2) is an error-free no-op. -/
theorem run_point_delete_spec_witness :
    ((run_point_delete_workload (WorkloadState.new 2) 2 1).1
        = { WorkloadState.new 2 with next_delete_id := 1 }) ∧
    ((0 : ℤ) < (2 : ℕ) ∧
      (run_point_delete_workload (WorkloadState.new 2) 2 1).2.1
          = some (scatter_id 0 2) ∧
      ¬(run_point_delete_workload (WorkloadState.new 2) 2 1).2.2 = true) ∧
    ((2 : ℕ) ≤ 2 ∧
      (run_point_delete_workload
          ((point_delete_iter 2 1)^[2] (WorkloadState.new 2)) 2 1).2
        = (none, false)) := by
  refine ⟨(run_point_delete_spec 2 (WorkloadState.new 2) 1).1, ⟨by norm_num, ?_, ?_⟩,
    ⟨le_refl 2, (run_point_delete_spec 2 (WorkloadState.new 2) 1).2.2.2 2 (le_refl 2)⟩⟩
  · exact ((run_point_delete_spec 2 (WorkloadState.new 2) 1).2.2.1 (by decide)).1
  · intro hcontra
    have := (((run_point_delete_spec 2 (WorkloadState.new 2) 1).2.2.1
      (by decide)).2).mp hcontra
    omega

/-- C4: `scatter_for_pk` computes `region = sequential_id / range_size` and
`offset = scatter_id (sequential_id % range_size)` and returns
`region * range_size + offset`; non-negative sequential ids in different
regions produce different scattered keys, and ids `0`, `range_size`,
`2 * range_size` land in regions `0`, `1`, `2` and give three distinct
scattered ids. -/
theorem scatter_for_pk_regions (range_size : ℕ) (hn : 0 < range_size) :
    (∀ s : ℤ, scatter_for_pk s range_size
        = Int.tdiv s (range_size : ℤ) * (range_size : ℤ)
            + scatter_id (Int.tmod s (range_size : ℤ)) range_size) ∧
    (∀ a b : ℤ, 0 ≤ a → 0 ≤ b →
      Int.tdiv a (range_size : ℤ) ≠ Int.tdiv b (range_size : ℤ) →
      scatter_for_pk a range_size ≠ scatter_for_pk b range_size) ∧
    (Int.tdiv 0 (range_size : ℤ) = 0 ∧
      Int.tdiv (range_size : ℤ) (range_size : ℤ) = 1 ∧
      Int.tdiv (2 * range_size : ℤ) (range_size : ℤ) = 2) ∧
    (scatter_for_pk 0 range_size ≠ scatter_for_pk (range_size : ℤ) range_size ∧
      scatter_for_pk (range_size : ℤ) range_size
        ≠ scatter_for_pk (2 * range_size : ℤ) range_size ∧
      scatter_for_pk 0 range_size
        ≠ scatter_for_pk (2 * range_size : ℤ) range_size) := by
  have hz : ((range_size : ℤ)) ≠ 0 := by exact_mod_cast hn.ne'
  have hpos : (0 : ℤ) < (range_size : ℤ) := by exact_mod_cast hn
  have hoff : ∀ a : ℤ, 0 ≤ a →
      0 ≤ scatter_id (Int.tmod a (range_size : ℤ)) range_size ∧
      scatter_id (Int.tmod a (range_size : ℤ)) range_size < range_size := by
    intro a ha
    exact scatter_id_nonneg_lt _ range_size
      (Int.tmod_nonneg _ ha) hn
  have hinj : ∀ a b : ℤ, 0 ≤ a → 0 ≤ b →
      Int.tdiv a (range_size : ℤ) ≠ Int.tdiv b (range_size : ℤ) →
      scatter_for_pk a range_size ≠ scatter_for_pk b range_size := by
    intro a b ha hb hne heq
    have hb1 := hoff a ha
    have hb2 := hoff b hb
    have heq2 : Int.tdiv a (range_size : ℤ) * (range_size : ℤ)
        + scatter_id (Int.tmod a (range_size : ℤ)) range_size
        = Int.tdiv b (range_size : ℤ) * (range_size : ℤ)
        + scatter_id (Int.tmod b (range_size : ℤ)) range_size := heq
    set r1 := Int.tdiv a (range_size : ℤ) with hr1
    set r2 := Int.tdiv b (range_size : ℤ) with hr2
    set o1 := scatter_id (Int.tmod a (range_size : ℤ)) range_size with ho1
    set o2 := scatter_id (Int.tmod b (range_size : ℤ)) range_size with ho2
    have hkey : (r1 - r2) * (range_size : ℤ) = o2 - o1 := by
      linear_combination heq2
    have hdvd : (range_size : ℤ) ∣ o2 - o1 := ⟨r1 - r2, by linarith [hkey]⟩
    have hzero : o2 - o1 = 0 := by
      refine Int.eq_zero_of_abs_lt_dvd hdvd ?_
      rw [abs_lt]
      constructor <;> omega
    have : (r1 - r2) * (range_size : ℤ) = 0 := by omega
    rcases mul_eq_zero.mp this with h | h
    · exact hne (by omega)
    · exact hz h
  have hdiv0 : Int.tdiv 0 (range_size : ℤ) = 0 := Int.zero_tdiv _
  have hdiv1 : Int.tdiv (range_size : ℤ) (range_size : ℤ) = 1 :=
    Int.tdiv_self hz
  have hdiv2 : Int.tdiv (2 * range_size : ℤ) (range_size : ℤ) = 2 :=
    Int.mul_tdiv_cancel 2 hz
  refine ⟨fun s => rfl, hinj, ⟨hdiv0, hdiv1, hdiv2⟩, ?_, ?_, ?_⟩
  · exact hinj 0 (range_size : ℤ) le_rfl (by positivity) (by rw [hdiv0, hdiv1]; omega)
  · exact hinj (range_size : ℤ) (2 * range_size : ℤ) (by positivity) (by positivity)
      (by rw [hdiv1, hdiv2]; omega)
  · exact hinj 0 (2 * range_size : ℤ) le_rfl (by positivity)
      (by rw [hdiv0, hdiv2]; omega)

/-- Witness for C4 at `range_size = 7`: ids 0, 7, 14 give three distinct
scattered keys. -/
theorem scatter_for_pk_regions_witness :
    (0 < 7) ∧
    (scatter_for_pk 0 7 ≠ scatter_for_pk 7 7 ∧
      scatter_for_pk 7 7 ≠ scatter_for_pk 14 7 ∧
      scatter_for_pk 0 7 ≠ scatter_for_pk 14 7) :=
  ⟨by norm_num,
   by
    have h := (scatter_for_pk_regions 7 (by norm_num)).2.2.2
    exact_mod_cast h⟩

/-- The predicate describing which start offsets the range-update executor
can select: `rng.gen_range(range.start..(range.end - 3))` from
workloads.rs line 146 (identical in main.rs line 341).  `u64` subtraction is
modelled by truncated `ℕ` subtraction; when `range.end < range.start + 4`
the Rust range is empty and `gen_range` panics, and accordingly no start
satisfies the predicate. -/
def range_update_start_selectable (r : ThreadRange) (start : ℕ) : Prop :=
  r.start ≤ start ∧ start < r.«end» - 3

instance (r : ThreadRange) (start : ℕ) :
    Decidable (range_update_start_selectable r start) := by
  unfold range_update_start_selectable; infer_instance

/-- `run_range_update_workload` from workloads.rs lines 141–159, given the
start offset the rng produced: the `UPDATE ... WHERE id BETWEEN ? AND ?`
statement is bound to the inclusive interval `[start, start + 10]`. -/
def run_range_update_workload (r : ThreadRange) (start : ℕ) : ℕ × ℕ :=
  (start, start + 10)

/-- C8 counterexample: for the worker range `[0, 20)` (one thread, 20 rows)
the executor can select `start = 16`, and the updated interval `[16, 26]`
does not lie within the worker's assigned range — its upper end 26 is past
`end = 20`.  The selection bound (3) and the update width (10) are two
different constants, not one shared span. -/
theorem range_update_escapes_range_cex :
    range_update_start_selectable (ThreadRange.new 0 1 20) 16 ∧
    run_range_update_workload (ThreadRange.new 0 1 20) 16 = (16, 26) ∧
    ¬(26 < (ThreadRange.new 0 1 20).«end») ∧
    ¬((3 : ℕ) = 10) := by
  refine ⟨?_, rfl, ?_, by norm_num⟩
  · show (ThreadRange.new 0 1 20).start ≤ 16 ∧ 16 < (ThreadRange.new 0 1 20).«end» - 3
    decide
  · decide

/-- C8 amended: the executor selects a uniformly random start inside
`[range.start, range.end - 3)` — the selection bound constant is 3 — and
updates exactly the ids in the inclusive interval `[start, start + 10]` —
the update width constant is 10.  The two constants differ, so the updated
interval is only guaranteed to start inside the worker's range; its upper
end can exceed `range.end - 1` by up to 7. -/
theorem run_range_update_bounds (r : ThreadRange) (start : ℕ)
    (h : range_update_start_selectable r start) :
    (run_range_update_workload r start).1 = start ∧
    (run_range_update_workload r start).2 = start + 10 ∧
    r.start ≤ start ∧ start + 3 < r.«end» ∧
    (run_range_update_workload r start).2 ≤ r.«end» + 6 := by
  obtain ⟨h1, h2⟩ := h
  refine ⟨rfl, rfl, h1, by omega, ?_⟩
  show start + 10 ≤ r.«end» + 6
  omega

/-- Witness for C8's amended claim at the worker range `[0, 20)` and
`start = 5`. -/
theorem run_range_update_bounds_witness :
    range_update_start_selectable (ThreadRange.new 0 1 20) 5 ∧
    ((run_range_update_workload (ThreadRange.new 0 1 20) 5).1 = 5 ∧
      (run_range_update_workload (ThreadRange.new 0 1 20) 5).2 = 15 ∧
      (run_range_update_workload (ThreadRange.new 0 1 20) 5).2
        ≤ (ThreadRange.new 0 1 20).«end» + 6) :=
  ⟨by decide,
   ⟨(run_range_update_bounds (ThreadRange.new 0 1 20) 5 (by decide)).1,
    (run_range_update_bounds (ThreadRange.new 0 1 20) 5 (by decide)).2.1,
    (run_range_update_bounds (ThreadRange.new 0 1 20) 5 (by decide)).2.2.2.2⟩⟩

/-- `LatencyStats` from the archived main.rs lines 114–122 (`f64` fields
modelled as `ℚ`). -/
structure LatencyStats where
  avg : ℚ
  median : ℚ
  p95 : ℚ
  p99 : ℚ
  min : ℚ
  max : ℚ
deriving DecidableEq, Repr

/-- `percentile` from the archived main.rs lines 141–147: nearest-rank
lookup at `index = round(p / 100 * (n - 1))` into the ascending-sorted
array.  Rust's `f64::round` rounds half away from zero; the index value is
non-negative at every call site, where that equals `⌊x + 1/2⌋`. -/
def percentile (sorted_data : List ℚ) (p : ℚ) : ℚ :=
  if sorted_data.isEmpty then 0
  else
    let index := Int.toNat
      (Int.floor (p / 100 * ((sorted_data.length : ℚ) - 1) + 1 / 2))
    sorted_data.getD index 0

/-- `statistical::mean`: arithmetic mean. -/
def mean (l : List ℚ) : ℚ := l.sum / (l.length : ℚ)

/-- `statistical::median`: middle element of the ascending-sorted data for
odd length, average of the two middle elements for even length. -/
def median (l : List ℚ) : ℚ :=
  let sorted := l.insertionSort (· ≤ ·)
  let n := sorted.length
  if n % 2 = 0 then (sorted.getD (n / 2 - 1) 0 + sorted.getD (n / 2) 0) / 2
  else sorted.getD (n / 2) 0

/-- The window filter of `Metrics::calculate_stats` (archived main.rs lines
85–90): keep the latencies of exactly the samples whose recorded relative
timestamp lies in the inclusive interval `[window_start, window_end]`. -/
def window_latencies (latencies : List (ℚ × ℚ))
    (window_start window_end : ℚ) : List ℚ :=
  (latencies.filter
    (fun p => decide (window_start ≤ p.1 ∧ p.1 ≤ window_end))).map Prod.snd

/-- `Metrics::calculate_stats` from the archived main.rs lines 80–111:
filter samples to the window, return `none` for an empty window, otherwise
sort ascending and produce the latency suite and the throughput
`count / (window_end - window_start)` (window bounds in seconds). -/
def calculate_stats (latencies : List (ℚ × ℚ))
    (window_start window_end : ℚ) : Option (LatencyStats × ℚ) :=
  let window := window_latencies latencies window_start window_end
  if window.isEmpty then none
  else
    let sorted_latencies := window.insertionSort (· ≤ ·)
    let throughput := (window.length : ℚ) / (window_end - window_start)
    some
      ({ avg := mean sorted_latencies
         median := median sorted_latencies
         p95 := percentile sorted_latencies 95
         p99 := percentile sorted_latencies 99
         min := sorted_latencies.headD 0
         max := sorted_latencies.getLastD 0 }, throughput)

/-- C6: `calculate_stats` keeps exactly the samples whose timestamp lies in
the inclusive window `[window_start, window_end]`, and returns `none`
exactly when no sample falls in the window — never a zero-valued result for
an empty window. -/
theorem calculate_stats_window_none (latencies : List (ℚ × ℚ))
    (window_start window_end : ℚ) :
    (∀ x : ℚ, x ∈ window_latencies latencies window_start window_end ↔
      ∃ p ∈ latencies, (window_start ≤ p.1 ∧ p.1 ≤ window_end) ∧ p.2 = x) ∧
    (calculate_stats latencies window_start window_end = none ↔
      window_latencies latencies window_start window_end = []) ∧
    (calculate_stats latencies window_start window_end = none ↔
      ∀ p ∈ latencies, ¬(window_start ≤ p.1 ∧ p.1 ≤ window_end)) := by
  have hmem : ∀ x : ℚ,
      x ∈ window_latencies latencies window_start window_end ↔
      ∃ p ∈ latencies, (window_start ≤ p.1 ∧ p.1 ≤ window_end) ∧ p.2 = x := by
    intro x
    unfold window_latencies
    simp only [List.mem_map, List.mem_filter, decide_eq_true_eq]
    constructor
    · rintro ⟨p, ⟨hp, hw⟩, hx⟩
      exact ⟨p, hp, hw, hx⟩
    · rintro ⟨p, hp, hw, hx⟩
      exact ⟨p, ⟨hp, hw⟩, hx⟩
  have hnone : calculate_stats latencies window_start window_end = none ↔
      window_latencies latencies window_start window_end = [] := by
    unfold calculate_stats
    rcases h : window_latencies latencies window_start window_end with _ | ⟨a, l⟩
    · simp [h]
    · simp [h]
  refine ⟨hmem, hnone, hnone.trans ?_⟩
  rw [List.eq_nil_iff_forall_not_mem]
  constructor
  · intro h p hp hw
    exact h p.2 ((hmem p.2).mpr ⟨p, hp, hw, rfl⟩)
  · intro h x hx
    obtain ⟨p, hp, hw, _⟩ := (hmem x).mp hx
    exact h p hp hw

/-- C7: for a window containing exactly the latency samples
`[10, 20, 30, 40, 50]`, the statistics engine returns mean 30, median 30,
min 10, max 50 (and p95 = p99 = 50, throughput 5/100): min/max are the
first/last elements of the ascending-sorted array and p95/p99 use the
nearest-rank index `round(p/100 * (n-1))`, which is 4 for both here. -/
theorem calculate_stats_sample_values :
    calculate_stats [(1, 10), (2, 20), (3, 30), (4, 40), (5, 50)] 0 100 =
      some ({ avg := 30, median := 30, p95 := 50, p99 := 50,
              min := 10, max := 50 }, 1 / 20) ∧
    (([10, 20, 30, 40, 50] : List ℚ).insertionSort (· ≤ ·)).headD 0 = 10 ∧
    (([10, 20, 30, 40, 50] : List ℚ).insertionSort (· ≤ ·)).getLastD 0 = 50 ∧
    percentile (([10, 20, 30, 40, 50] : List ℚ).insertionSort (· ≤ ·)) 95 = 50 ∧
    percentile (([10, 20, 30, 40, 50] : List ℚ).insertionSort (· ≤ ·)) 99 = 50 ∧
    Int.toNat (Int.floor ((95 : ℚ) / 100 * (5 - 1) + 1 / 2)) = 4 ∧
    Int.toNat (Int.floor ((99 : ℚ) / 100 * (5 - 1) + 1 / 2)) = 4 := by
  refine ⟨?_, ?_, ?_, ?_, ?_, ?_, ?_⟩
  · norm_num [calculate_stats, window_latencies, mean, median, percentile,
      List.insertionSort, List.orderedInsert]
    rfl
  · norm_num [List.insertionSort, List.orderedInsert]
  · norm_num [List.insertionSort, List.orderedInsert]
  · norm_num [percentile, List.insertionSort, List.orderedInsert]
    rfl
  · norm_num [percentile, List.insertionSort, List.orderedInsert]
    rfl
  · norm_num
    rfl
  · norm_num
    rfl

/-- The per-metric computation of `output_comparative_results` (main.rs
lines 541–542 for throughput and 569–571 for the latency metrics; the same
formula in the archived main.rs lines 478–480): absolute difference
`opt - pess` and percentage `diff / pess * 100`. -/
def output_comparative_metric (opt_val pess_val : ℚ) : ℚ × ℚ :=
  let diff := opt_val - pess_val
  (diff, diff / pess_val * 100)

/-- C9: the comparative reporter computes `difference = A - B` and
`percent_difference = difference / B * 100`; mode-A throughput 100 against
mode-B throughput 80 yields difference 20 and percent difference 25. -/
theorem output_comparative_metric_spec :
    (∀ opt_val pess_val : ℚ, output_comparative_metric opt_val pess_val
        = (opt_val - pess_val, (opt_val - pess_val) / pess_val * 100)) ∧
    output_comparative_metric 100 80 = (20, 25) := by
  refine ⟨fun _ _ => rfl, ?_⟩
  unfold output_comparative_metric
  norm_num

end Bench
